import Mathlib

/-!
Shallow embedding of `voronoi_finite_polygons_2d` (src/voronoi.py) of the
bionoi repository, together with theorems settling the frozen claims about
the finite-region reconstruction algorithm.

Floating-point coordinates are modelled as real numbers.  The scipy Voronoi
result object is modelled by the structure `VorDiagram` below; `dim` models
`vor.points.shape[1]` (the second dimension of the N×d point array).  The two
exception paths of the Python function (the explicit `ValueError("Requires 2D
input")` and the `KeyError` that `all_ridges[p1]` raises when a point with an
unbounded raw region is incident to no ridge) are modelled by an `Except`
result.
-/

namespace Bionoi

/-- The fields of the scipy `Voronoi` object that
`voronoi_finite_polygons_2d` reads. -/
structure VorDiagram where
  dim : ℕ
  points : List (ℝ × ℝ)
  vertices : List (ℝ × ℝ)
  ridge_points : List (ℕ × ℕ)
  ridge_vertices : List (ℤ × ℤ)
  point_region : List ℕ
  regions : List (List ℤ)

/-- The two exception paths of the Python function:
`dimErr` models `ValueError("Requires 2D input")`,
`keyErr` models the `KeyError` raised by `all_ridges[p1]`. -/
inductive VorError where
  | dimErr
  | keyErr
  deriving DecidableEq

/-- Python sequence indexing `l[i]`: negative indices wrap from the end
(out-of-range access, which Python would fault on, yields the default). -/
def pyGet (l : List α) (d : α) (i : ℤ) : α :=
  if 0 ≤ i then l.getD i.toNat d else l.getD (l.length - i.natAbs) d

/-- Row-major flattening of the N×2 point array, as `numpy.ndarray.ptp()`
(no axis argument) sees it. -/
def flatCoords (pts : List (ℝ × ℝ)) : List ℝ :=
  (pts.map fun p => [p.1, p.2]).flatten

/-- `numpy` max of a flattened array (0 on the empty array, which numpy
would fault on). -/
noncomputable def listMax : List ℝ → ℝ
  | [] => 0
  | x :: xs => xs.foldl max x

/-- `numpy` min of a flattened array (0 on the empty array). -/
noncomputable def listMin : List ℝ → ℝ
  | [] => 0
  | x :: xs => xs.foldl min x

/-- `vor.points.ptp().max()*2` (src/voronoi.py line 43): `ptp()` with no axis
flattens the array, so this is the global peak-to-peak spread over the x and
y coordinates together, times two. -/
noncomputable def defaultRadius (pts : List (ℝ × ℝ)) : ℝ :=
  (listMax (flatCoords pts) - listMin (flatCoords pts)) * 2

/-- `arr.mean(axis=0)` of a list of 2D rows (used for the global `center`
at line 41 and the per-region centroid `c` at line 86). -/
noncomputable def meanOf (vs : List (ℝ × ℝ)) : ℝ × ℝ :=
  ((vs.map Prod.fst).sum / vs.length, (vs.map Prod.snd).sum / vs.length)

/-- `np.sign` on a scalar. -/
noncomputable def npSign (x : ℝ) : ℝ :=
  if x < 0 then -1 else if x = 0 then 0 else 1

/-- 2D dot product. -/
noncomputable def dot2 (a b : ℝ × ℝ) : ℝ := a.1 * b.1 + a.2 * b.2

/-- Componentwise difference of 2D rows. -/
noncomputable def vsub (a b : ℝ × ℝ) : ℝ × ℝ := (a.1 - b.1, a.2 - b.2)

/-- Componentwise negation of a 2D row. -/
noncomputable def vneg (a : ℝ × ℝ) : ℝ × ℝ := (-a.1, -a.2)

/-- Lines 71-73 of src/voronoi.py: the normal `n = [-t[1], t[0]]` of the
normalized tangent `t = (pb - pa) / norm(pb - pa)`.  (Division by a zero
norm, numpy nan/inf from coincident points, is a documented caller
precondition; the Lean junk value is 0.) -/
noncomputable def nvec (pa pb : ℝ × ℝ) : ℝ × ℝ :=
  let d := vsub pb pa
  let nrm := Real.sqrt (d.1 ^ 2 + d.2 ^ 2)
  (-(d.2 / nrm), d.1 / nrm)

/-- `vor.points[[p1, p2]].mean(axis=0)` (line 75). -/
noncomputable def midpointOf (pa pb : ℝ × ℝ) : ℝ × ℝ :=
  ((pa.1 + pb.1) / 2, (pa.2 + pb.2) / 2)

/-- Lines 71-77 of src/voronoi.py: the synthesized far point
`vor.vertices[v2] + sign(dot(midpoint - center, n)) * n * radius`. -/
noncomputable def ridgeFarRaw (pa pb center vtx : ℝ × ℝ) (radius : ℝ) : ℝ × ℝ :=
  let n := nvec pa pb
  let s := npSign (dot2 (vsub (midpointOf pa pb) center) n)
  (vtx.1 + s * n.1 * radius, vtx.2 + s * n.2 * radius)

/-- Lines 46-49 of src/voronoi.py: the entry `all_ridges[p]` of the ridge
map.  `setdefault(...).append` builds, for each key `p`, the list of
`(other_point, v1, v2)` triples in ridge order, one per occurrence of `p`
in a ridge pair (both occurrences when `p1 = p2 = p`). -/
def allRidges (vor : VorDiagram) (p : ℕ) : List (ℕ × ℤ × ℤ) :=
  ((vor.ridge_points.zip vor.ridge_vertices).map fun pr =>
    (if pr.1.1 = p then [(pr.1.2, pr.2.1, pr.2.2)] else []) ++
    (if pr.1.2 = p then [(pr.1.1, pr.2.1, pr.2.2)] else [])).flatten

/-- Whether `p` is a key of `all_ridges` (so that `all_ridges[p]` does not
raise `KeyError`). -/
def hasRidge (vor : VorDiagram) (p : ℕ) : Bool :=
  (vor.ridge_points.zip vor.ridge_vertices).any fun pr =>
    pr.1.1 == p || pr.1.2 == p

/-- Lines 64-82 of src/voronoi.py, one iteration of the ridge loop for point
`p1`: carries `(new_region, new_vertices)`.  After the conditional swap the
ridge is skipped when its first vertex index is non-negative; otherwise a far
point is synthesized from `vor.vertices[v2]` (the original vertex array) and
appended, its new index (the current length of `new_vertices`) going into the
region. -/
noncomputable def ridgeStep (vor : VorDiagram) (center : ℝ × ℝ) (radius : ℝ)
    (p1 : ℕ) (st : List ℤ × List (ℝ × ℝ)) (ridge : ℕ × ℤ × ℤ) :
    List ℤ × List (ℝ × ℝ) :=
  let p2 := ridge.1
  let w1 := if ridge.2.2 < 0 then ridge.2.2 else ridge.2.1
  let w2 := if ridge.2.2 < 0 then ridge.2.1 else ridge.2.2
  if 0 ≤ w1 then st
  else
    let pa := vor.points.getD p1 (0, 0)
    let pb := vor.points.getD p2 (0, 0)
    let far := ridgeFarRaw pa pb center (pyGet vor.vertices (0, 0) w2) radius
    (st.1 ++ [(st.2.length : ℤ)], st.2 ++ [far])

/-- The centroid `c = vs.mean(axis=0)` of the collected coordinates of a
region (line 86). -/
noncomputable def collectedCenter (verts : List (ℝ × ℝ)) (reg : List ℤ) : ℝ × ℝ :=
  meanOf (reg.map (pyGet verts (0, 0)))

/-- The sort key `np.arctan2(y - c[1], x - c[0])` of one vertex index
(line 87), with `arctan2 y x` modelled as `Complex.arg (x + y*I)`. -/
noncomputable def vertexAngle (verts : List (ℝ × ℝ)) (c : ℝ × ℝ) (v : ℤ) : ℝ :=
  let p := pyGet verts (0, 0) v
  Complex.arg { re := p.1 - c.1, im := p.2 - c.2 }

/-- Lines 85-88 of src/voronoi.py: re-sort the region's vertex indices by
ascending angle around the centroid of the collected coordinates.
`np.argsort` on the angle array is modelled by an insertion sort on the
angle key.  numpy's default `argsort` (an introsort) guarantees only the
key ordering, not the order among exact angular ties, so this model is one
admissible refinement: every theorem proved below about a region produced
by this sort relies only on ordering-, membership- and length-level facts,
which hold for any sort consistent with the key (the concrete evaluations
sort regions whose angles are pairwise distinct). -/
noncomputable def sortRegion (verts : List (ℝ × ℝ)) (reg : List ℤ) : List ℤ :=
  let c := collectedCenter verts reg
  List.insertionSort (fun a b => vertexAngle verts c a ≤ vertexAngle verts c b) reg

/-- Lines 53-91 of src/voronoi.py, the body of the per-point loop for point
`p1` with raw region index `regionIdx`: emit an all-non-negative raw region
unchanged; otherwise look up the incident ridges (raising `KeyError` when
`p1` is not a key of `all_ridges`), keep the non-negative raw indices, run
the ridge loop, and re-sort. -/
noncomputable def pointStep (vor : VorDiagram) (center : ℝ × ℝ) (radius : ℝ)
    (verts : List (ℝ × ℝ)) (p1 : ℕ) (regionIdx : ℕ) :
    Except VorError (List ℤ × List (ℝ × ℝ)) :=
  let vertices := vor.regions.getD regionIdx []
  if vertices.all fun v => decide (0 ≤ v) then .ok (vertices, verts)
  else if hasRidge vor p1 then
    let base := vertices.filter fun v => decide (0 ≤ v)
    let st := (allRidges vor p1).foldl (ridgeStep vor center radius p1) (base, verts)
    .ok (sortRegion st.2 st.1, st.2)
  else .error .keyErr

/-- The `for p1, region in enumerate(vor.point_region)` loop (lines 52-91),
threading the accumulated `new_regions` and the growing `new_vertices`. -/
noncomputable def runPoints (vor : VorDiagram) (center : ℝ × ℝ) (radius : ℝ) :
    List (ℕ × ℕ) → List (List ℤ) → List (ℝ × ℝ) →
    Except VorError (List (List ℤ) × List (ℝ × ℝ))
  | [], regs, verts => .ok (regs, verts)
  | pr :: rest, regs, verts =>
    match pointStep vor center radius verts pr.1 pr.2 with
    | .error e => .error e
    | .ok rv => runPoints vor center radius rest (regs ++ [rv.1]) rv.2

/-- `voronoi_finite_polygons_2d(vor, radius)` (src/voronoi.py lines 9-93):
returns `(new_regions, new_vertices)` or the modelled exception. -/
noncomputable def voronoi_finite_polygons_2d (vor : VorDiagram)
    (radius : Option ℝ) : Except VorError (List (List ℤ) × List (ℝ × ℝ)) :=
  if vor.dim ≠ 2 then .error .dimErr
  else
    runPoints vor (meanOf vor.points) (radius.getD (defaultRadius vor.points))
      vor.point_region.enum [] vor.vertices

/-- The coordinate polygon of the `i`-th output region, as the caller
`voronoi_atoms` reads it (`vertices[reg]`). -/
noncomputable def outPolygon (out : List (List ℤ) × List (ℝ × ℝ)) (i : ℕ) :
    List (ℝ × ℝ) :=
  (out.1.getD i []).map (pyGet out.2 (0, 0))

/-- Shoelace signed area of a coordinate polygon (the spec's orientation
test). -/
noncomputable def shoelace (poly : List (ℝ × ℝ)) : ℝ :=
  ((poly.zip (poly.rotate 1)).map fun ab => ab.1.1 * ab.2.2 - ab.2.1 * ab.1.2).sum / 2

/-- Squared Euclidean distance between 2D rows. -/
noncomputable def distSq (a b : ℝ × ℝ) : ℝ := (a.1 - b.1) ^ 2 + (a.2 - b.2) ^ 2

/-- Two synthesized vertices produced by two runs that differ only in the
radius: both are the far point of the same ridge data, evaluated at the
respective radius. -/
def synthRel (c : ℝ × ℝ) (r r2 : ℝ) (a b : ℝ × ℝ) : Prop :=
  ∃ pa pb vtx : ℝ × ℝ, a = ridgeFarRaw pa pb c vtx r ∧ b = ridgeFarRaw pa pb c vtx r2

/-- The radius formula as claim C6 words it (twice the larger of the
x-extent and the y-extent), stated from the spec for comparison with the
source's `defaultRadius`. -/
noncomputable def specRadius (pts : List (ℝ × ℝ)) : ℝ :=
  2 * max (listMax (pts.map Prod.fst) - listMin (pts.map Prod.fst))
      (listMax (pts.map Prod.snd) - listMin (pts.map Prod.snd))

/-! ### Concrete diagrams used by witnesses and counterexamples -/

/-- A diagram whose single point has an already-finite raw region listing a
clockwise triangle: `voronoi_finite_polygons_2d` passes it through
unchanged. -/
def vorFin : VorDiagram :=
  { dim := 2
    points := [(3, 3)]
    vertices := [(0, 0), (0, 1), (1, 0)]
    ridge_points := []
    ridge_vertices := []
    point_region := [0]
    regions := [[0, 1, 2]] }

/-- A diagram with one unbounded raw region (point 0): the single ridge
between points 0 and 1 has the infinity sentinel in its first vertex slot,
so a far vertex is synthesized from vertex 0 = (1, 40).  The global centroid
is (1, 10), below that vertex, so the outward direction is (0, -1) and the
far point is (1, 40 - radius): increasing the radius moves it closer to the
centroid until radius 30. -/
def vorRad : VorDiagram :=
  { dim := 2
    points := [(0, 0), (2, 0), (1, 30)]
    vertices := [(1, 40)]
    ridge_points := [(0, 1)]
    ridge_vertices := [(-1, 0)]
    point_region := [0, 1, 2]
    regions := [[-1, 0], [0], [0]] }

theorem vorFin_run :
    voronoi_finite_polygons_2d vorFin none =
      .ok ([[0, 1, 2]], [(0, 0), (0, 1), (1, 0)]) := rfl

/-! ### Structural lemmas about the per-point step and the main loop -/

theorem pointStep_finite (vor : VorDiagram) (center : ℝ × ℝ) (radius : ℝ)
    (verts : List (ℝ × ℝ)) (p1 regionIdx : ℕ)
    (h : ((vor.regions.getD regionIdx []).all fun v => decide (0 ≤ v)) = true) :
    pointStep vor center radius verts p1 regionIdx =
      .ok (vor.regions.getD regionIdx [], verts) := by
  simp only [pointStep]
  rw [h]
  rfl

theorem pointStep_unbounded (vor : VorDiagram) (center : ℝ × ℝ) (radius : ℝ)
    (verts : List (ℝ × ℝ)) (p1 regionIdx : ℕ)
    (hfin : ((vor.regions.getD regionIdx []).all fun v => decide (0 ≤ v)) = false)
    (hr : hasRidge vor p1 = true) :
    pointStep vor center radius verts p1 regionIdx =
      .ok (sortRegion
        ((allRidges vor p1).foldl (ridgeStep vor center radius p1)
          ((vor.regions.getD regionIdx []).filter fun v => decide (0 ≤ v), verts)).2
        ((allRidges vor p1).foldl (ridgeStep vor center radius p1)
          ((vor.regions.getD regionIdx []).filter fun v => decide (0 ≤ v), verts)).1,
        ((allRidges vor p1).foldl (ridgeStep vor center radius p1)
          ((vor.regions.getD regionIdx []).filter fun v => decide (0 ≤ v), verts)).2) := by
  simp only [pointStep]
  rw [hfin, hr]
  rfl

theorem pointStep_keyErr (vor : VorDiagram) (center : ℝ × ℝ) (radius : ℝ)
    (verts : List (ℝ × ℝ)) (p1 regionIdx : ℕ)
    (hfin : ((vor.regions.getD regionIdx []).all fun v => decide (0 ≤ v)) = false)
    (hr : hasRidge vor p1 = false) :
    pointStep vor center radius verts p1 regionIdx = .error .keyErr := by
  simp only [pointStep]
  rw [hfin, hr]
  rfl

theorem sortRegion_perm (verts : List (ℝ × ℝ)) (reg : List ℤ) :
    List.Perm (sortRegion verts reg) reg :=
  List.perm_insertionSort _ _

theorem ridgeStep_cases (vor : VorDiagram) (center : ℝ × ℝ) (radius : ℝ)
    (p1 : ℕ) (st : List ℤ × List (ℝ × ℝ)) (r : ℕ × ℤ × ℤ) :
    ridgeStep vor center radius p1 st r = st ∨
      ridgeStep vor center radius p1 st r =
        (st.1 ++ [(st.2.length : ℤ)], st.2 ++
          [ridgeFarRaw (vor.points.getD p1 (0, 0)) (vor.points.getD r.1 (0, 0))
            center (pyGet vor.vertices (0, 0) (if r.2.2 < 0 then r.2.1 else r.2.2))
            radius]) := by
  by_cases hskip : 0 ≤ (if r.2.2 < 0 then r.2.2 else r.2.1)
  · exact Or.inl (by simp [ridgeStep, hskip])
  · exact Or.inr (by simp [ridgeStep, hskip])

theorem foldl_ridgeStep_verts (vor : VorDiagram) (center : ℝ × ℝ) (radius : ℝ)
    (p1 : ℕ) (ridges : List (ℕ × ℤ × ℤ)) (st : List ℤ × List (ℝ × ℝ)) :
    ∃ t, (ridges.foldl (ridgeStep vor center radius p1) st).2 = st.2 ++ t := by
  induction ridges generalizing st with
  | nil => exact ⟨[], by simp⟩
  | cons r ridges ih =>
    simp only [List.foldl_cons]
    rcases ridgeStep_cases vor center radius p1 st r with hstep | hstep
    · rw [hstep]
      exact ih st
    · rw [hstep]
      obtain ⟨t, ht⟩ := ih (st.1 ++ [(st.2.length : ℤ)], st.2 ++
        [ridgeFarRaw (vor.points.getD p1 (0, 0)) (vor.points.getD r.1 (0, 0))
          center (pyGet vor.vertices (0, 0) (if r.2.2 < 0 then r.2.1 else r.2.2))
          radius])
      refine ⟨ridgeFarRaw (vor.points.getD p1 (0, 0)) (vor.points.getD r.1 (0, 0))
        center (pyGet vor.vertices (0, 0) (if r.2.2 < 0 then r.2.1 else r.2.2))
        radius :: t, ?_⟩
      rw [ht]
      exact List.append_assoc st.2 _ t

theorem foldl_ridgeStep_len (vor : VorDiagram) (center : ℝ × ℝ) (radius : ℝ)
    (p1 : ℕ) (ridges : List (ℕ × ℤ × ℤ)) (st : List ℤ × List (ℝ × ℝ)) :
    st.2.length ≤ (ridges.foldl (ridgeStep vor center radius p1) st).2.length := by
  obtain ⟨t, ht⟩ := foldl_ridgeStep_verts vor center radius p1 ridges st
  rw [ht]
  simp

theorem foldl_ridgeStep_mem (vor : VorDiagram) (center : ℝ × ℝ) (radius : ℝ)
    (p1 : ℕ) (ridges : List (ℕ × ℤ × ℤ)) (st : List ℤ × List (ℝ × ℝ)) :
    ∀ v ∈ (ridges.foldl (ridgeStep vor center radius p1) st).1,
      v ∈ st.1 ∨ ((st.2.length : ℤ) ≤ v ∧
        v < ((ridges.foldl (ridgeStep vor center radius p1) st).2.length : ℤ)) := by
  induction ridges generalizing st with
  | nil => exact fun v hv => Or.inl hv
  | cons r ridges ih =>
    simp only [List.foldl_cons]
    rcases ridgeStep_cases vor center radius p1 st r with hstep | hstep
    · rw [hstep]
      exact ih st
    · rw [hstep]
      intro v hv
      have hmono : (st.2.length + 1 : ℕ) ≤
          ((ridges.foldl (ridgeStep vor center radius p1)
            (st.1 ++ [(st.2.length : ℤ)], st.2 ++
              [ridgeFarRaw (vor.points.getD p1 (0, 0)) (vor.points.getD r.1 (0, 0))
                center (pyGet vor.vertices (0, 0)
                  (if r.2.2 < 0 then r.2.1 else r.2.2)) radius])).2.length) := by
        have := foldl_ridgeStep_len vor center radius p1 ridges
          (st.1 ++ [(st.2.length : ℤ)], st.2 ++
            [ridgeFarRaw (vor.points.getD p1 (0, 0)) (vor.points.getD r.1 (0, 0))
              center (pyGet vor.vertices (0, 0)
                (if r.2.2 < 0 then r.2.1 else r.2.2)) radius])
        simpa using this
      rcases ih _ v hv with hv' | ⟨h1, h2⟩
      · have hv2 : v ∈ st.1 ∨ v = (st.2.length : ℤ) := by simpa using hv'
        rcases hv2 with h | h
        · exact Or.inl h
        · subst h
          exact Or.inr ⟨le_refl _, by omega⟩
      · have h1' : (st.2.length : ℤ) + 1 ≤ v := by
          have := h1
          simp at this
          omega
        exact Or.inr ⟨by omega, h2⟩

theorem pointStep_ok_verts (vor : VorDiagram) (center : ℝ × ℝ) (radius : ℝ)
    (verts : List (ℝ × ℝ)) (p1 regionIdx : ℕ)
    (rv : List ℤ × List (ℝ × ℝ))
    (h : pointStep vor center radius verts p1 regionIdx = .ok rv) :
    ∃ t, rv.2 = verts ++ t := by
  by_cases hfin : ((vor.regions.getD regionIdx []).all fun v => decide (0 ≤ v)) = true
  · rw [pointStep_finite vor center radius verts p1 regionIdx hfin] at h
    cases h
    exact ⟨[], by simp⟩
  · have hfin' : ((vor.regions.getD regionIdx []).all fun v => decide (0 ≤ v)) = false := by
      simpa using hfin
    by_cases hr : hasRidge vor p1 = true
    · rw [pointStep_unbounded vor center radius verts p1 regionIdx hfin' hr] at h
      cases h
      obtain ⟨t, ht⟩ := foldl_ridgeStep_verts vor center radius p1
        (allRidges vor p1)
        ((vor.regions.getD regionIdx []).filter fun v => decide (0 ≤ v), verts)
      exact ⟨t, ht⟩
    · rw [pointStep_keyErr vor center radius verts p1 regionIdx hfin'
        (by simpa using hr)] at h
      cases h

theorem pointStep_ok_nonneg (vor : VorDiagram) (center : ℝ × ℝ) (radius : ℝ)
    (verts : List (ℝ × ℝ)) (p1 regionIdx : ℕ)
    (rv : List ℤ × List (ℝ × ℝ))
    (h : pointStep vor center radius verts p1 regionIdx = .ok rv) :
    ∀ v ∈ rv.1, 0 ≤ v := by
  by_cases hfin : ((vor.regions.getD regionIdx []).all fun v => decide (0 ≤ v)) = true
  · rw [pointStep_finite vor center radius verts p1 regionIdx hfin] at h
    cases h
    intro v hv
    simpa using List.all_eq_true.1 hfin v hv
  · have hfin' : ((vor.regions.getD regionIdx []).all fun v => decide (0 ≤ v)) = false := by
      simpa using hfin
    by_cases hr : hasRidge vor p1 = true
    · rw [pointStep_unbounded vor center radius verts p1 regionIdx hfin' hr] at h
      cases h
      intro v hv
      have hv' : v ∈ ((allRidges vor p1).foldl (ridgeStep vor center radius p1)
          ((vor.regions.getD regionIdx []).filter fun v => decide (0 ≤ v), verts)).1 :=
        (sortRegion_perm _ _).mem_iff.1 hv
      have hmem := foldl_ridgeStep_mem vor center radius p1
        (allRidges vor p1)
        ((vor.regions.getD regionIdx []).filter fun v => decide (0 ≤ v), verts)
      rcases hmem v hv' with hbase | ⟨h1, -⟩
      · simpa using (List.mem_filter.1 hbase).2
      · exact le_trans (Int.ofNat_nonneg _) h1
    · rw [pointStep_keyErr vor center radius verts p1 regionIdx hfin'
        (by simpa using hr)] at h
      cases h

theorem pointStep_error (vor : VorDiagram) (center : ℝ × ℝ) (radius : ℝ)
    (verts : List (ℝ × ℝ)) (p1 regionIdx : ℕ) (e : VorError)
    (h : pointStep vor center radius verts p1 regionIdx = .error e) :
    e = .keyErr := by
  by_cases hfin : ((vor.regions.getD regionIdx []).all fun v => decide (0 ≤ v)) = true
  · rw [pointStep_finite vor center radius verts p1 regionIdx hfin] at h
    cases h
  · have hfin' : ((vor.regions.getD regionIdx []).all fun v => decide (0 ≤ v)) = false := by
      simpa using hfin
    by_cases hr : hasRidge vor p1 = true
    · rw [pointStep_unbounded vor center radius verts p1 regionIdx hfin' hr] at h
      cases h
    · rw [pointStep_keyErr vor center radius verts p1 regionIdx hfin'
        (by simpa using hr)] at h
      cases h
      rfl

theorem runPoints_ok_length (vor : VorDiagram) (c : ℝ × ℝ) (r : ℝ)
    (l : List (ℕ × ℕ)) :
    ∀ (regs : List (List ℤ)) (verts : List (ℝ × ℝ))
      (out : List (List ℤ) × List (ℝ × ℝ)),
      runPoints vor c r l regs verts = .ok out →
      out.1.length = regs.length + l.length := by
  induction l with
  | nil =>
    intro regs verts out h
    simp only [runPoints] at h
    cases h
    simp
  | cons pr rest ih =>
    intro regs verts out h
    simp only [runPoints] at h
    cases hps : pointStep vor c r verts pr.1 pr.2 with
    | error e =>
      rw [hps] at h
      cases h
    | ok rv =>
      rw [hps] at h
      have := ih (regs ++ [rv.1]) rv.2 out h
      simp at this ⊢
      omega

theorem runPoints_ok_regs (vor : VorDiagram) (c : ℝ × ℝ) (r : ℝ)
    (l : List (ℕ × ℕ)) :
    ∀ (regs : List (List ℤ)) (verts : List (ℝ × ℝ))
      (out : List (List ℤ) × List (ℝ × ℝ)),
      runPoints vor c r l regs verts = .ok out →
      ∃ t, out.1 = regs ++ t := by
  induction l with
  | nil =>
    intro regs verts out h
    simp only [runPoints] at h
    cases h
    exact ⟨[], by simp⟩
  | cons pr rest ih =>
    intro regs verts out h
    simp only [runPoints] at h
    cases hps : pointStep vor c r verts pr.1 pr.2 with
    | error e =>
      rw [hps] at h
      cases h
    | ok rv =>
      rw [hps] at h
      obtain ⟨t, ht⟩ := ih (regs ++ [rv.1]) rv.2 out h
      exact ⟨rv.1 :: t, by rw [ht]; simp⟩

theorem runPoints_ok_verts (vor : VorDiagram) (c : ℝ × ℝ) (r : ℝ)
    (l : List (ℕ × ℕ)) :
    ∀ (regs : List (List ℤ)) (verts : List (ℝ × ℝ))
      (out : List (List ℤ) × List (ℝ × ℝ)),
      runPoints vor c r l regs verts = .ok out →
      ∃ t, out.2 = verts ++ t := by
  induction l with
  | nil =>
    intro regs verts out h
    simp only [runPoints] at h
    cases h
    exact ⟨[], by simp⟩
  | cons pr rest ih =>
    intro regs verts out h
    simp only [runPoints] at h
    cases hps : pointStep vor c r verts pr.1 pr.2 with
    | error e =>
      rw [hps] at h
      cases h
    | ok rv =>
      rw [hps] at h
      obtain ⟨u, hu⟩ := pointStep_ok_verts vor c r verts pr.1 pr.2 rv hps
      obtain ⟨t, ht⟩ := ih (regs ++ [rv.1]) rv.2 out h
      exact ⟨u ++ t, by rw [ht, hu, List.append_assoc]⟩

theorem runPoints_error (vor : VorDiagram) (c : ℝ × ℝ) (r : ℝ)
    (l : List (ℕ × ℕ)) :
    ∀ (regs : List (List ℤ)) (verts : List (ℝ × ℝ)) (e : VorError),
      runPoints vor c r l regs verts = .error e → e = .keyErr := by
  induction l with
  | nil =>
    intro regs verts e h
    simp only [runPoints] at h
    cases h
  | cons pr rest ih =>
    intro regs verts e h
    simp only [runPoints] at h
    cases hps : pointStep vor c r verts pr.1 pr.2 with
    | error e2 =>
      rw [hps] at h
      cases h
      exact pointStep_error vor c r verts pr.1 pr.2 _ hps
    | ok rv =>
      rw [hps] at h
      exact ih (regs ++ [rv.1]) rv.2 e h

theorem runPoints_align (vor : VorDiagram) (c : ℝ × ℝ) (r : ℝ)
    (l : List (ℕ × ℕ)) :
    ∀ (regs : List (List ℤ)) (verts : List (ℝ × ℝ))
      (out : List (List ℤ) × List (ℝ × ℝ)),
      runPoints vor c r l regs verts = .ok out →
      ∀ k, k < l.length →
        ∃ vertsK rv, (∃ u, vertsK = verts ++ u) ∧
          pointStep vor c r vertsK (l.getD k (0, 0)).1 (l.getD k (0, 0)).2 = .ok rv ∧
          out.1.getD (regs.length + k) [] = rv.1 := by
  induction l with
  | nil =>
    intro regs verts out h k hk
    simp at hk
  | cons pr rest ih =>
    intro regs verts out h k hk
    simp only [runPoints] at h
    cases hps : pointStep vor c r verts pr.1 pr.2 with
    | error e =>
      rw [hps] at h
      cases h
    | ok rv =>
      rw [hps] at h
      cases k with
      | zero =>
        refine ⟨verts, rv, ⟨[], by simp⟩, by simpa using hps, ?_⟩
        obtain ⟨t, ht⟩ := runPoints_ok_regs vor c r rest (regs ++ [rv.1]) rv.2 out h
        rw [ht, List.append_assoc]
        simp only [Nat.add_zero]
        rw [List.getD_append_right regs ([rv.1] ++ t) [] regs.length (by simp)]
        simp
      | succ k =>
        obtain ⟨vertsK, rv2, ⟨u, hu⟩, hstep, hout⟩ :=
          ih (regs ++ [rv.1]) rv.2 out h k (by simpa using hk)
        obtain ⟨w, hw⟩ := pointStep_ok_verts vor c r verts pr.1 pr.2 rv hps
        refine ⟨vertsK, rv2, ⟨w ++ u, by rw [hu, hw, List.append_assoc]⟩,
          by simpa using hstep, ?_⟩
        have harith : regs.length + (k + 1) = (regs ++ [rv.1]).length + k := by
          simp
          omega
        rw [harith]
        exact hout

theorem runPoints_nonneg (vor : VorDiagram) (c : ℝ × ℝ) (r : ℝ)
    (l : List (ℕ × ℕ)) :
    ∀ (regs : List (List ℤ)) (verts : List (ℝ × ℝ))
      (out : List (List ℤ) × List (ℝ × ℝ)),
      runPoints vor c r l regs verts = .ok out →
      (∀ reg ∈ regs, ∀ v ∈ reg, 0 ≤ v) →
      ∀ reg ∈ out.1, ∀ v ∈ reg, 0 ≤ v := by
  induction l with
  | nil =>
    intro regs verts out h hregs
    simp only [runPoints] at h
    cases h
    exact hregs
  | cons pr rest ih =>
    intro regs verts out h hregs
    simp only [runPoints] at h
    cases hps : pointStep vor c r verts pr.1 pr.2 with
    | error e =>
      rw [hps] at h
      cases h
    | ok rv =>
      rw [hps] at h
      refine ih (regs ++ [rv.1]) rv.2 out h ?_
      intro reg hreg
      rcases List.mem_append.1 hreg with hreg | hreg
      · exact hregs reg hreg
      · simp only [List.mem_singleton] at hreg
        subst hreg
        exact pointStep_ok_nonneg vor c r verts pr.1 pr.2 rv hps

theorem getD_mem_or_default (l : List (List ℤ)) (i : ℕ) :
    l.getD i [] ∈ l ∨ l.getD i [] = [] := by
  by_cases h : i < l.length
  · left
    rw [List.getD_eq_getElem l [] h]
    exact List.getElem_mem h
  · right
    exact List.getD_eq_default l [] (le_of_not_lt h)

theorem pointStep_bounds (vor : VorDiagram) (center : ℝ × ℝ) (radius : ℝ)
    (verts : List (ℝ × ℝ)) (p1 regionIdx : ℕ) (rv : List ℤ × List (ℝ × ℝ))
    (V : ℕ)
    (hraw : ∀ reg ∈ vor.regions, ∀ v ∈ reg, 0 ≤ v → v < (V : ℤ))
    (hV : V ≤ verts.length)
    (h : pointStep vor center radius verts p1 regionIdx = .ok rv) :
    ∀ v ∈ rv.1, v < (rv.2.length : ℤ) := by
  have hrawD : ∀ v ∈ vor.regions.getD regionIdx [], 0 ≤ v → v < (V : ℤ) := by
    rcases getD_mem_or_default vor.regions regionIdx with hm | hm
    · exact hraw _ hm
    · rw [hm]
      intro v hv
      cases hv
  by_cases hfin : ((vor.regions.getD regionIdx []).all fun v => decide (0 ≤ v)) = true
  · rw [pointStep_finite vor center radius verts p1 regionIdx hfin] at h
    cases h
    intro v hv
    have h0 : 0 ≤ v := by simpa using List.all_eq_true.1 hfin v hv
    have hvV := hrawD v hv h0
    have : v < (verts.length : ℤ) := lt_of_lt_of_le hvV (by exact_mod_cast hV)
    simpa using this
  · have hfin' : ((vor.regions.getD regionIdx []).all fun v => decide (0 ≤ v)) = false := by
      simpa using hfin
    by_cases hr : hasRidge vor p1 = true
    · rw [pointStep_unbounded vor center radius verts p1 regionIdx hfin' hr] at h
      cases h
      intro v hv
      have hv' := (sortRegion_perm _ _).mem_iff.1 hv
      have hlen := foldl_ridgeStep_len vor center radius p1 (allRidges vor p1)
        ((vor.regions.getD regionIdx []).filter fun v => decide (0 ≤ v), verts)
      rcases foldl_ridgeStep_mem vor center radius p1 (allRidges vor p1)
          ((vor.regions.getD regionIdx []).filter fun v => decide (0 ≤ v), verts)
          v hv' with hbase | ⟨-, h2⟩
      · have hm := List.mem_filter.1 hbase
        have h0 : 0 ≤ v := by simpa using hm.2
        have hvV := hrawD v hm.1 h0
        simp only at hlen
        have hc : (V : ℤ) ≤ (((allRidges vor p1).foldl (ridgeStep vor center radius p1)
            ((vor.regions.getD regionIdx []).filter fun v => decide (0 ≤ v),
              verts)).2.length : ℤ) := by
          exact_mod_cast le_trans hV hlen
        exact lt_of_lt_of_le hvV hc
      · exact h2
    · rw [pointStep_keyErr vor center radius verts p1 regionIdx hfin'
        (by simpa using hr)] at h
      cases h

theorem runPoints_bounds (vor : VorDiagram) (c : ℝ × ℝ) (r : ℝ) (V : ℕ)
    (hraw : ∀ reg ∈ vor.regions, ∀ v ∈ reg, 0 ≤ v → v < (V : ℤ))
    (l : List (ℕ × ℕ)) :
    ∀ (regs : List (List ℤ)) (verts : List (ℝ × ℝ))
      (out : List (List ℤ) × List (ℝ × ℝ)),
      runPoints vor c r l regs verts = .ok out →
      V ≤ verts.length →
      (∀ reg ∈ regs, ∀ v ∈ reg, v < (verts.length : ℤ)) →
      verts.length ≤ out.2.length ∧
        ∀ reg ∈ out.1, ∀ v ∈ reg, v < (out.2.length : ℤ) := by
  induction l with
  | nil =>
    intro regs verts out h hV hregs
    simp only [runPoints] at h
    cases h
    exact ⟨le_refl _, hregs⟩
  | cons pr rest ih =>
    intro regs verts out h hV hregs
    simp only [runPoints] at h
    cases hps : pointStep vor c r verts pr.1 pr.2 with
    | error e =>
      rw [hps] at h
      cases h
    | ok rv =>
      rw [hps] at h
      obtain ⟨u, hu⟩ := pointStep_ok_verts vor c r verts pr.1 pr.2 rv hps
      have hlen : verts.length ≤ rv.2.length := by
        rw [hu]
        simp
      have hbound := pointStep_bounds vor c r verts pr.1 pr.2 rv V hraw hV hps
      have hinv : ∀ reg ∈ regs ++ [rv.1], ∀ v ∈ reg, v < (rv.2.length : ℤ) := by
        intro reg hreg
        rcases List.mem_append.1 hreg with hm | hm
        · intro v hv
          exact lt_of_lt_of_le (hregs reg hm v hv) (by exact_mod_cast hlen)
        · simp only [List.mem_singleton] at hm
          subst hm
          exact hbound
      have hres := ih (regs ++ [rv.1]) rv.2 out h (le_trans hV hlen) hinv
      exact ⟨le_trans hlen hres.1, hres.2⟩

/-! ### Claim C1 -/

/-- C1: for every input point, the region returned by the reconstructor
contains no infinity-sentinel vertex index — every index in every output
region is non-negative, in the finite passthrough case and in the
unbounded-region case alike. -/
theorem C1_no_sentinel_in_output (vor : VorDiagram) (radius : Option ℝ)
    (out : List (List ℤ) × List (ℝ × ℝ))
    (h : voronoi_finite_polygons_2d vor radius = .ok out) :
    ∀ reg ∈ out.1, ∀ v ∈ reg, 0 ≤ v := by
  unfold voronoi_finite_polygons_2d at h
  by_cases hd : vor.dim ≠ 2
  · rw [if_pos hd] at h
    cases h
  · rw [if_neg hd] at h
    exact runPoints_nonneg vor _ _ _ [] vor.vertices out h (by simp)

theorem C1_witness : (0 : ℤ) ≤ 2 :=
  C1_no_sentinel_in_output vorFin none
    ([[0, 1, 2]], [(0, 0), (0, 1), (1, 0)]) vorFin_run
    [0, 1, 2] (by simp) 2 (by simp)

/-! ### Claim C8 -/

/-- C8: the reconstructor raises the dimension error if and only if the
input points are not 2-dimensional; the check is the first thing the
function does, so no partial output accompanies it, and no other code path
produces this error. -/
theorem C8_dim_error_iff (vor : VorDiagram) (radius : Option ℝ) :
    voronoi_finite_polygons_2d vor radius = .error .dimErr ↔ vor.dim ≠ 2 := by
  unfold voronoi_finite_polygons_2d
  by_cases hd : vor.dim ≠ 2
  · simp [hd]
  · rw [if_neg hd]
    constructor
    · intro hcon
      exact VorError.noConfusion
        (runPoints_error vor _ _ _ [] vor.vertices .dimErr hcon)
    · intro hcon
      exact absurd hcon hd

theorem enum_getD (l : List ℕ) (i : ℕ) (hi : i < l.length) :
    l.enum.getD i (0, 0) = (i, l.getD i 0) := by
  have hi' : i < l.enum.length := by
    rw [List.enum_length]
    exact hi
  rw [List.getD_eq_getElem _ _ hi', List.getElem_enum, List.getD_eq_getElem _ _ hi]

/-! ### Claim C2 -/

/-- C2: the reconstructor returns exactly one region per input point, and the
output is index-aligned: the region at index `i` is the one the per-point
step computes for point id `i` from its own raw region
`regions[point_region[i]]`. -/
theorem C2_count_and_alignment (vor : VorDiagram) (radius : Option ℝ)
    (out : List (List ℤ) × List (ℝ × ℝ))
    (h : voronoi_finite_polygons_2d vor radius = .ok out)
    (hN : vor.point_region.length = vor.points.length) :
    out.1.length = vor.points.length ∧
    ∀ i, i < vor.points.length →
      ∃ vertsI rv, pointStep vor (meanOf vor.points)
          (radius.getD (defaultRadius vor.points)) vertsI i
          (vor.point_region.getD i 0) = .ok rv ∧
        out.1.getD i [] = rv.1 := by
  unfold voronoi_finite_polygons_2d at h
  by_cases hd : vor.dim ≠ 2
  · rw [if_pos hd] at h
    cases h
  · rw [if_neg hd] at h
    constructor
    · have := runPoints_ok_length vor _ _ _ [] vor.vertices out h
      simpa [List.enum_length, hN] using this
    · intro i hi
      have hiR : i < vor.point_region.length := by omega
      have hi' : i < vor.point_region.enum.length := by
        rw [List.enum_length]
        exact hiR
      obtain ⟨vertsK, rv, -, hstep, hout⟩ :=
        runPoints_align vor _ _ _ [] vor.vertices out h i hi'
      rw [enum_getD vor.point_region i hiR] at hstep
      exact ⟨vertsK, rv, hstep, by simpa using hout⟩

theorem C2_witness :
    ([[0, 1, 2]] : List (List ℤ)).length = vorFin.points.length :=
  (C2_count_and_alignment vorFin none
    ([[0, 1, 2]], [(0, 0), (0, 1), (1, 0)]) vorFin_run rfl).1

/-! ### Claim C5 -/

theorem run_finite_region (vor : VorDiagram) (radius : Option ℝ)
    (out : List (List ℤ) × List (ℝ × ℝ)) (i : ℕ)
    (h : voronoi_finite_polygons_2d vor radius = .ok out)
    (hi : i < vor.point_region.length)
    (hfin : ((vor.regions.getD (vor.point_region.getD i 0) []).all
      fun v => decide (0 ≤ v)) = true) :
    out.1.getD i [] = vor.regions.getD (vor.point_region.getD i 0) [] := by
  unfold voronoi_finite_polygons_2d at h
  by_cases hd : vor.dim ≠ 2
  · rw [if_pos hd] at h
    cases h
  · rw [if_neg hd] at h
    have hi' : i < vor.point_region.enum.length := by
      rw [List.enum_length]
      exact hi
    obtain ⟨vertsK, rv, -, hstep, hout⟩ :=
      runPoints_align vor _ _ _ [] vor.vertices out h i hi'
    rw [enum_getD vor.point_region i hi] at hstep
    rw [pointStep_finite vor _ _ vertsK i (vor.point_region.getD i 0) hfin] at hstep
    cases hstep
    simpa using hout

/-- C5: a point whose raw region contains only non-negative vertex indices
is passed through unchanged — the emitted region is the raw index list
itself (hence the same coordinates in the same order), and the per-point
step leaves the vertex list untouched (no synthesized vertices for that
point, no re-sort). -/
theorem C5_passthrough (vor : VorDiagram) (radius : Option ℝ)
    (out : List (List ℤ) × List (ℝ × ℝ)) (i : ℕ)
    (h : voronoi_finite_polygons_2d vor radius = .ok out)
    (hi : i < vor.point_region.length)
    (hfin : ((vor.regions.getD (vor.point_region.getD i 0) []).all
      fun v => decide (0 ≤ v)) = true) :
    out.1.getD i [] = vor.regions.getD (vor.point_region.getD i 0) [] ∧
    ∀ (center : ℝ × ℝ) (rad : ℝ) (verts : List (ℝ × ℝ)),
      pointStep vor center rad verts i (vor.point_region.getD i 0) =
        .ok (vor.regions.getD (vor.point_region.getD i 0) [], verts) :=
  ⟨run_finite_region vor radius out i h hi hfin, fun center rad verts =>
    pointStep_finite vor center rad verts i (vor.point_region.getD i 0) hfin⟩

theorem C5_witness :
    ([[0, 1, 2]] : List (List ℤ)).getD 0 [] =
      vorFin.regions.getD (vorFin.point_region.getD 0 0) [] :=
  (C5_passthrough vorFin none ([[0, 1, 2]], [(0, 0), (0, 1), (1, 0)]) 0
    vorFin_run (by decide) (by decide)).1

/-! ### Claim C10 -/

/-- C10: assuming every non-sentinel raw vertex index is a valid index into
the `V` original vertices, every index in every returned region is a valid
index into the returned vertex list: the vertex list only grows (synthetic
indices are handed out as the length at the moment of each append), so all
output indices satisfy `0 ≤ v < out.2.length`. -/
theorem C10_indices_in_range (vor : VorDiagram) (radius : Option ℝ)
    (out : List (List ℤ) × List (ℝ × ℝ))
    (h : voronoi_finite_polygons_2d vor radius = .ok out)
    (hvalid : ∀ reg ∈ vor.regions, ∀ v ∈ reg, 0 ≤ v →
      v < (vor.vertices.length : ℤ)) :
    vor.vertices.length ≤ out.2.length ∧
    ∀ reg ∈ out.1, ∀ v ∈ reg, 0 ≤ v ∧ v < (out.2.length : ℤ) := by
  unfold voronoi_finite_polygons_2d at h
  by_cases hd : vor.dim ≠ 2
  · rw [if_pos hd] at h
    cases h
  · rw [if_neg hd] at h
    have hb := runPoints_bounds vor _ _ vor.vertices.length hvalid _ []
      vor.vertices out h (le_refl _) (by simp)
    have hn := runPoints_nonneg vor _ _ _ [] vor.vertices out h (by simp)
    exact ⟨hb.1, fun reg hr v hv => ⟨hn reg hr v hv, hb.2 reg hr v hv⟩⟩

theorem C10_witness :
    vorFin.vertices.length ≤ ([(0, 0), (0, 1), (1, 0)] : List (ℝ × ℝ)).length :=
  (C10_indices_in_range vorFin none
    ([[0, 1, 2]], [(0, 0), (0, 1), (1, 0)]) vorFin_run (by decide)).1

theorem sqrt_four : Real.sqrt 4 = 2 := by
  rw [show (4 : ℝ) = 2 ^ 2 by norm_num, Real.sqrt_sq (by norm_num : (0 : ℝ) ≤ 2)]

theorem nvec_unit_of_dot_ne (pa pb x : ℝ × ℝ)
    (h : dot2 x (nvec pa pb) ≠ 0) :
    dot2 (nvec pa pb) (nvec pa pb) = 1 := by
  have hnrm : Real.sqrt ((vsub pb pa).1 ^ 2 + (vsub pb pa).2 ^ 2) ≠ 0 := by
    intro h0
    apply h
    simp [nvec, h0, dot2]
  have hsum : (vsub pb pa).1 ^ 2 + (vsub pb pa).2 ^ 2 ≠ 0 := by
    intro h0
    apply hnrm
    rw [h0, Real.sqrt_zero]
  have hsq : Real.sqrt ((vsub pb pa).1 ^ 2 + (vsub pb pa).2 ^ 2) ^ 2 =
      (vsub pb pa).1 ^ 2 + (vsub pb pa).2 ^ 2 :=
    Real.sq_sqrt (by positivity)
  simp only [nvec, dot2]
  field_simp
  linarith [hsq]

/-! ### Claim C3 -/

/-- C3: for an unbounded ridge (sentinel in one vertex slot, after the swap
normalization), the far vertex appended by the ridge loop equals the ridge's
finite vertex plus `direction * radius`, where `direction` is the unit
perpendicular `(-t.y, t.x)` of the normalized point-to-point tangent,
sign-flipped so that its dot product with (midpoint − global centroid) is
strictly positive.  The hypothesis `hdot` states that this dot product is
nonzero — the sign-flip rule presupposes it (for genuine Voronoi data it
holds: an unbounded ridge lies on the convex hull, so the centroid is
strictly off its line). -/
theorem C3_synthesized_far_vertex (vor : VorDiagram) (center : ℝ × ℝ)
    (radius : ℝ) (p1 : ℕ) (st : List ℤ × List (ℝ × ℝ)) (p2 : ℕ) (v1 v2 : ℤ)
    (hv1 : v1 < 0) (hv2 : 0 ≤ v2)
    (hdot : dot2 (vsub (midpointOf (vor.points.getD p1 (0, 0))
        (vor.points.getD p2 (0, 0))) center)
      (nvec (vor.points.getD p1 (0, 0)) (vor.points.getD p2 (0, 0))) ≠ 0) :
    ∃ dir : ℝ × ℝ,
      ridgeStep vor center radius p1 st (p2, v1, v2) =
        (st.1 ++ [(st.2.length : ℤ)],
          st.2 ++ [((pyGet vor.vertices (0, 0) v2).1 + dir.1 * radius,
            (pyGet vor.vertices (0, 0) v2).2 + dir.2 * radius)]) ∧
      (dir = nvec (vor.points.getD p1 (0, 0)) (vor.points.getD p2 (0, 0)) ∨
        dir = vneg (nvec (vor.points.getD p1 (0, 0))
          (vor.points.getD p2 (0, 0)))) ∧
      0 < dot2 (vsub (midpointOf (vor.points.getD p1 (0, 0))
        (vor.points.getD p2 (0, 0))) center) dir ∧
      dot2 dir dir = 1 := by
  set pa := vor.points.getD p1 (0, 0) with hpa
  set pb := vor.points.getD p2 (0, 0) with hpb
  set n := nvec pa pb with hn
  set m := vsub (midpointOf pa pb) center with hm
  set vtx := pyGet vor.vertices (0, 0) v2 with hvtx
  have hstep : ridgeStep vor center radius p1 st (p2, v1, v2) =
      (st.1 ++ [(st.2.length : ℤ)],
        st.2 ++ [ridgeFarRaw pa pb center vtx radius]) := by
    simp only [ridgeStep]
    simp only [if_neg (not_lt.2 hv2), if_neg (not_le.2 hv1)]
  have hunit : dot2 n n = 1 := nvec_unit_of_dot_ne pa pb m hdot
  rcases lt_trichotomy (dot2 m n) 0 with hneg | hzero | hpos
  · have hs : npSign (dot2 m n) = -1 := by simp [npSign, hneg]
    refine ⟨vneg n, ?_, Or.inr rfl, ?_, ?_⟩
    · rw [hstep]
      have hfar : ridgeFarRaw pa pb center vtx radius =
          (vtx.1 + (vneg n).1 * radius, vtx.2 + (vneg n).2 * radius) := by
        simp only [ridgeFarRaw, ← hn, ← hm, hs, vneg]
        simp only [Prod.mk.injEq]
        constructor <;> ring
      rw [hfar]
    · simp only [dot2, vneg] at hneg ⊢
      nlinarith [hneg]
    · simp only [dot2, vneg] at hunit ⊢
      nlinarith [hunit]
  · exact absurd hzero hdot
  · have hs : npSign (dot2 m n) = 1 := by
      simp [npSign, not_lt.2 (le_of_lt hpos), ne_of_gt hpos]
    refine ⟨n, ?_, Or.inl rfl, hpos, hunit⟩
    rw [hstep]
    have hfar : ridgeFarRaw pa pb center vtx radius =
        (vtx.1 + n.1 * radius, vtx.2 + n.2 * radius) := by
      simp only [ridgeFarRaw, ← hn, ← hm, hs]
      simp only [Prod.mk.injEq]
      constructor <;> ring
    rw [hfar]

theorem C3_witness :
    ∃ dir : ℝ × ℝ,
      ridgeStep vorRad (1, 10) 7 0 ([], []) (1, -1, 0) =
        ([(0 : ℤ)], [((1 : ℝ) + dir.1 * 7, (40 : ℝ) + dir.2 * 7)]) ∧
      (dir = nvec (0, 0) (2, 0) ∨ dir = vneg (nvec (0, 0) (2, 0))) ∧
      0 < dot2 (vsub (midpointOf (0, 0) (2, 0)) (1, 10)) dir ∧
      dot2 dir dir = 1 := by
  have hdot : dot2 (vsub (midpointOf ((0 : ℝ), (0 : ℝ)) (2, 0)) (1, 10))
      (nvec (0, 0) (2, 0)) ≠ 0 := by
    simp [dot2, vsub, midpointOf, nvec, sqrt_four]
  exact C3_synthesized_far_vertex vorRad (1, 10) 7 0 ([], []) 1 (-1) 0
    (by decide) (by decide) hdot

/-! ### Evaluating the reconstruction on `vorRad` -/

theorem vorRad_mean : meanOf vorRad.points = (1, 10) := by
  simp only [meanOf, vorRad]
  norm_num

theorem ridgeFar_vorRad (r : ℝ) :
    ridgeFarRaw (0, 0) (2, 0) (1, 10) (1, 40) r = (1, 40 - r) := by
  have hnv : nvec ((0 : ℝ), (0 : ℝ)) (2, 0) = (0, 1) := by
    simp only [nvec, vsub]
    norm_num [sqrt_four]
  simp only [ridgeFarRaw, hnv, midpointOf, vsub, dot2, npSign]
  norm_num
  ring

theorem fold_vorRad (r : ℝ) :
    (allRidges vorRad 0).foldl (ridgeStep vorRad (1, 10) r 0) ([0], [(1, 40)]) =
      ([0, 1], [(1, 40), (1, 40 - r)]) := by
  have har : allRidges vorRad 0 = [(1, -1, 0)] := rfl
  rw [har]
  simp only [List.foldl_cons, List.foldl_nil]
  have hstep : ridgeStep vorRad (1, 10) r 0 ([0], [(1, 40)]) (1, -1, 0) =
      ([0, 1], [(1, 40), ridgeFarRaw (0, 0) (2, 0) (1, 10) (1, 40) r]) := by
    simp only [ridgeStep]
    norm_num
    rfl
  rw [hstep, ridgeFar_vorRad]

theorem sort_vorRad (r : ℝ) (hr : 0 < r) :
    sortRegion [((1 : ℝ), 40), (1, 40 - r)] [0, 1] = [1, 0] := by
  have hc : collectedCenter [((1 : ℝ), 40), (1, 40 - r)] [0, 1] =
      (1, (80 - r) / 2) := by
    simp [collectedCenter, meanOf, pyGet]
    ring
  have ha0 : vertexAngle [((1 : ℝ), 40), (1, 40 - r)] (1, (80 - r) / 2) 0 =
      Real.pi / 2 := by
    simp [vertexAngle, pyGet]
    rw [Complex.arg_eq_pi_div_two_iff]
    constructor
    · norm_num
    · norm_num
      linarith
  have ha1 : vertexAngle [((1 : ℝ), 40), (1, 40 - r)] (1, (80 - r) / 2) 1 =
      -(Real.pi / 2) := by
    simp [vertexAngle, pyGet]
    rw [Complex.arg_eq_neg_pi_div_two_iff]
    constructor
    · norm_num
    · norm_num
      linarith
  have hnle : ¬ (vertexAngle [((1 : ℝ), 40), (1, 40 - r)] (1, (80 - r) / 2) 0 ≤
      vertexAngle [((1 : ℝ), 40), (1, 40 - r)] (1, (80 - r) / 2) 1) := by
    rw [ha0, ha1]
    intro hcon
    have hpi := Real.pi_pos
    linarith
  simp only [sortRegion, hc, List.insertionSort, List.orderedInsert, if_neg hnle]

theorem pointStep_vorRad (r : ℝ) (hr : 0 < r) :
    pointStep vorRad (1, 10) r [(1, 40)] 0 0 =
      .ok ([1, 0], [(1, 40), (1, 40 - r)]) := by
  rw [pointStep_unbounded vorRad (1, 10) r [(1, 40)] 0 0 rfl rfl]
  have hfilter : ((vorRad.regions.getD 0 []).filter fun v => decide (0 ≤ v)) =
      [0] := rfl
  rw [hfilter, fold_vorRad r, sort_vorRad r hr]

theorem vorRad_run (r : ℝ) (hr : 0 < r) :
    voronoi_finite_polygons_2d vorRad (some r) =
      .ok ([[1, 0], [0], [0]], [(1, 40), (1, 40 - r)]) := by
  have hp0 := pointStep_vorRad r hr
  have hp1 : pointStep vorRad (1, 10) r [(1, 40), (1, 40 - r)] 1 1 =
      .ok ([0], [(1, 40), (1, 40 - r)]) :=
    pointStep_finite vorRad (1, 10) r [(1, 40), (1, 40 - r)] 1 1 rfl
  have hp2 : pointStep vorRad (1, 10) r [(1, 40), (1, 40 - r)] 2 2 =
      .ok ([0], [(1, 40), (1, 40 - r)]) :=
    pointStep_finite vorRad (1, 10) r [(1, 40), (1, 40 - r)] 2 2 rfl
  unfold voronoi_finite_polygons_2d
  rw [if_neg (by decide)]
  rw [vorRad_mean]
  have henum : vorRad.point_region.enum = [(0, 0), (1, 1), (2, 2)] := rfl
  have hverts : vorRad.vertices = [(1, 40)] := rfl
  rw [henum, hverts]
  simp only [Option.getD_some]
  simp [runPoints, hp0, hp1, hp2]

/-! ### Claim C9 -/

/-- C9 is refuted as stated: on `vorRad`, raising the radius from 1 to 3
moves the synthesized vertex (index 1, beyond the single original vertex)
from (1, 39) to (1, 37), which is strictly closer to the global centroid
(1, 10) — increasing the radius does not move every synthesized vertex
farther from the centroid. -/
theorem C9_counterexample :
    (1 : ℝ) < 3 ∧
    voronoi_finite_polygons_2d vorRad (some 1) =
      .ok ([[1, 0], [0], [0]], [(1, 40), (1, 39)]) ∧
    voronoi_finite_polygons_2d vorRad (some 3) =
      .ok ([[1, 0], [0], [0]], [(1, 40), (1, 37)]) ∧
    vorRad.vertices.length = 1 ∧
    distSq (1, 37) (meanOf vorRad.points) <
      distSq (1, 39) (meanOf vorRad.points) := by
  refine ⟨by norm_num, ?_, ?_, rfl, ?_⟩
  · have h := vorRad_run 1 (by norm_num)
    rw [show (40 : ℝ) - 1 = 39 by norm_num] at h
    exact h
  · have h := vorRad_run 3 (by norm_num)
    rw [show (40 : ℝ) - 3 = 37 by norm_num] at h
    exact h
  · rw [vorRad_mean]
    simp only [distSq]
    norm_num

theorem foldl_ridgeStep_pair (vor : VorDiagram) (c : ℝ × ℝ) (r r2 : ℝ)
    (p1 : ℕ) (ridges : List (ℕ × ℤ × ℤ)) :
    ∀ (base : List ℤ) (verts verts2 : List (ℝ × ℝ)),
      verts.length = verts2.length →
      (ridges.foldl (ridgeStep vor c r p1) (base, verts)).1 =
        (ridges.foldl (ridgeStep vor c r2 p1) (base, verts2)).1 ∧
      ∃ t t2,
        (ridges.foldl (ridgeStep vor c r p1) (base, verts)).2 = verts ++ t ∧
        (ridges.foldl (ridgeStep vor c r2 p1) (base, verts2)).2 = verts2 ++ t2 ∧
        List.Forall₂ (synthRel c r r2) t t2 := by
  induction ridges with
  | nil =>
    intro base verts verts2 hlen
    exact ⟨rfl, [], [], by simp, by simp, List.Forall₂.nil⟩
  | cons rg ridges ih =>
    intro base verts verts2 hlen
    simp only [List.foldl_cons]
    by_cases hskip : 0 ≤ (if rg.2.2 < 0 then rg.2.2 else rg.2.1)
    · have e1 : ridgeStep vor c r p1 (base, verts) rg = (base, verts) := by
        simp [ridgeStep, hskip]
      have e2 : ridgeStep vor c r2 p1 (base, verts2) rg = (base, verts2) := by
        simp [ridgeStep, hskip]
      rw [e1, e2]
      exact ih base verts verts2 hlen
    · have e1 : ridgeStep vor c r p1 (base, verts) rg =
          (base ++ [(verts.length : ℤ)], verts ++
            [ridgeFarRaw (vor.points.getD p1 (0, 0)) (vor.points.getD rg.1 (0, 0))
              c (pyGet vor.vertices (0, 0) (if rg.2.2 < 0 then rg.2.1 else rg.2.2))
              r]) := by
        simp [ridgeStep, hskip]
      have e2 : ridgeStep vor c r2 p1 (base, verts2) rg =
          (base ++ [(verts2.length : ℤ)], verts2 ++
            [ridgeFarRaw (vor.points.getD p1 (0, 0)) (vor.points.getD rg.1 (0, 0))
              c (pyGet vor.vertices (0, 0) (if rg.2.2 < 0 then rg.2.1 else rg.2.2))
              r2]) := by
        simp [ridgeStep, hskip]
      rw [e1, e2, hlen]
      have hlen2 : (verts ++
          [ridgeFarRaw (vor.points.getD p1 (0, 0)) (vor.points.getD rg.1 (0, 0))
            c (pyGet vor.vertices (0, 0) (if rg.2.2 < 0 then rg.2.1 else rg.2.2))
            r]).length =
          (verts2 ++
          [ridgeFarRaw (vor.points.getD p1 (0, 0)) (vor.points.getD rg.1 (0, 0))
            c (pyGet vor.vertices (0, 0) (if rg.2.2 < 0 then rg.2.1 else rg.2.2))
            r2]).length := by
        simp [hlen]
      obtain ⟨hreg, t, t2, ht, ht2, hrel⟩ := ih (base ++ [(verts2.length : ℤ)]) _ _ hlen2
      refine ⟨hreg, ridgeFarRaw (vor.points.getD p1 (0, 0))
          (vor.points.getD rg.1 (0, 0)) c
          (pyGet vor.vertices (0, 0) (if rg.2.2 < 0 then rg.2.1 else rg.2.2))
          r :: t,
        ridgeFarRaw (vor.points.getD p1 (0, 0)) (vor.points.getD rg.1 (0, 0)) c
          (pyGet vor.vertices (0, 0) (if rg.2.2 < 0 then rg.2.1 else rg.2.2))
          r2 :: t2, ?_, ?_, ?_⟩
      · rw [ht, List.append_assoc]
        rfl
      · rw [ht2, List.append_assoc]
        rfl
      · exact List.Forall₂.cons ⟨_, _, _, rfl, rfl⟩ hrel

theorem pointStep_pair (vor : VorDiagram) (c : ℝ × ℝ) (r r2 : ℝ)
    (verts verts2 : List (ℝ × ℝ)) (p1 regionIdx : ℕ)
    (rv rv2 : List ℤ × List (ℝ × ℝ))
    (hlen : verts.length = verts2.length)
    (h1 : pointStep vor c r verts p1 regionIdx = .ok rv)
    (h2 : pointStep vor c r2 verts2 p1 regionIdx = .ok rv2) :
    (∃ t t2, rv.2 = verts ++ t ∧ rv2.2 = verts2 ++ t2 ∧
      List.Forall₂ (synthRel c r r2) t t2) ∧
    (((vor.regions.getD regionIdx []).all fun v => decide (0 ≤ v)) = true →
      rv.1 = vor.regions.getD regionIdx [] ∧
      rv2.1 = vor.regions.getD regionIdx []) := by
  by_cases hfin : ((vor.regions.getD regionIdx []).all fun v => decide (0 ≤ v)) = true
  · rw [pointStep_finite vor c r verts p1 regionIdx hfin] at h1
    rw [pointStep_finite vor c r2 verts2 p1 regionIdx hfin] at h2
    cases h1
    cases h2
    exact ⟨⟨[], [], by simp, by simp, List.Forall₂.nil⟩, fun _ => ⟨rfl, rfl⟩⟩
  · have hfin' : ((vor.regions.getD regionIdx []).all
        fun v => decide (0 ≤ v)) = false := by
      simpa using hfin
    by_cases hr : hasRidge vor p1 = true
    · rw [pointStep_unbounded vor c r verts p1 regionIdx hfin' hr] at h1
      rw [pointStep_unbounded vor c r2 verts2 p1 regionIdx hfin' hr] at h2
      cases h1
      cases h2
      obtain ⟨-, t, t2, ht, ht2, hrel⟩ := foldl_ridgeStep_pair vor c r r2 p1
        (allRidges vor p1)
        ((vor.regions.getD regionIdx []).filter fun v => decide (0 ≤ v))
        verts verts2 hlen
      exact ⟨⟨t, t2, ht, ht2, hrel⟩,
        fun hcon => Bool.noConfusion (hcon.symm.trans hfin')⟩
    · rw [pointStep_keyErr vor c r verts p1 regionIdx hfin'
        (by simpa using hr)] at h1
      cases h1

theorem runPoints_pair (vor : VorDiagram) (c : ℝ × ℝ) (r r2 : ℝ)
    (l : List (ℕ × ℕ)) :
    ∀ (regs regs2 : List (List ℤ)) (verts verts2 : List (ℝ × ℝ))
      (out out2 : List (List ℤ) × List (ℝ × ℝ)),
      runPoints vor c r l regs verts = .ok out →
      runPoints vor c r2 l regs2 verts2 = .ok out2 →
      verts.length = verts2.length →
      regs.length = regs2.length →
      (out.1.length = out2.1.length ∧
        (∃ t t2, out.2 = verts ++ t ∧ out2.2 = verts2 ++ t2 ∧
          List.Forall₂ (synthRel c r r2) t t2) ∧
        ∀ k, k < l.length →
          ((vor.regions.getD ((l.getD k (0, 0)).2) []).all
            fun v => decide (0 ≤ v)) = true →
          out.1.getD (regs.length + k) [] = out2.1.getD (regs2.length + k) []) := by
  induction l with
  | nil =>
    intro regs regs2 verts verts2 out out2 h1 h2 hlen hreg
    simp only [runPoints] at h1 h2
    cases h1
    cases h2
    refine ⟨by simpa using hreg, ⟨[], [], by simp, by simp, List.Forall₂.nil⟩, ?_⟩
    intro k hk
    simp at hk
  | cons pr rest ih =>
    intro regs regs2 verts verts2 out out2 h1 h2 hlen hreg
    simp only [runPoints] at h1 h2
    cases hps1 : pointStep vor c r verts pr.1 pr.2 with
    | error e =>
      rw [hps1] at h1
      cases h1
    | ok rv =>
      rw [hps1] at h1
      cases hps2 : pointStep vor c r2 verts2 pr.1 pr.2 with
      | error e =>
        rw [hps2] at h2
        cases h2
      | ok rv2 =>
        rw [hps2] at h2
        obtain ⟨⟨u, u2, hu, hu2, hurel⟩, hfin⟩ :=
          pointStep_pair vor c r r2 verts verts2 pr.1 pr.2 rv rv2 hlen hps1 hps2
        have hulen : u.length = u2.length := hurel.length_eq
        have hlen2 : rv.2.length = rv2.2.length := by
          rw [hu, hu2]
          simp [hlen, hulen]
        have hreg2 : (regs ++ [rv.1]).length = (regs2 ++ [rv2.1]).length := by
          simp [hreg]
        obtain ⟨hL, ⟨t, t2, ht, ht2, htrel⟩, halign⟩ :=
          ih (regs ++ [rv.1]) (regs2 ++ [rv2.1]) rv.2 rv2.2 out out2 h1 h2
            hlen2 hreg2
        refine ⟨hL, ⟨u ++ t, u2 ++ t2, ?_, ?_, List.rel_append hurel htrel⟩, ?_⟩
        · rw [ht, hu, List.append_assoc]
        · rw [ht2, hu2, List.append_assoc]
        · intro k hk hfinK
          cases k with
          | zero =>
            simp only [List.getD_cons_zero] at hfinK
            obtain ⟨hrv1, hrv21⟩ := hfin hfinK
            obtain ⟨w, hw⟩ := runPoints_ok_regs vor c r rest (regs ++ [rv.1])
              rv.2 out h1
            obtain ⟨w2, hw2⟩ := runPoints_ok_regs vor c r2 rest (regs2 ++ [rv2.1])
              rv2.2 out2 h2
            rw [hw, hw2, List.append_assoc, List.append_assoc]
            simp only [Nat.add_zero]
            rw [List.getD_append_right regs ([rv.1] ++ w) [] regs.length (by simp),
              List.getD_append_right regs2 ([rv2.1] ++ w2) [] regs2.length (by simp)]
            simp [hrv1, hrv21]
          | succ k =>
            have hk' : k < rest.length := by simpa using hk
            have hfinK' : ((vor.regions.getD ((rest.getD k (0, 0)).2) []).all
                fun v => decide (0 ≤ v)) = true := by
              simpa using hfinK
            have := halign k hk' hfinK'
            have ha : regs.length + (k + 1) = (regs ++ [rv.1]).length + k := by
              simp
              omega
            have ha2 : regs2.length + (k + 1) = (regs2 ++ [rv2.1]).length + k := by
              simp
              omega
            rw [ha, ha2]
            exact this

/-- C9 amended: changing only the radius leaves the region count identical,
keeps every original vertex entry (the first V entries of the vertex list)
identical, keeps the output region of every already-finite point identical,
and the two runs append synthesized vertices in pairwise correspondence —
each pair is the far point of the same ridge data evaluated at the
respective radius, so only synthesized coordinates differ.  (The original
claim's monotonicity part — a larger radius moves every synthesized vertex
farther from the global centroid — is false; see the counterexample.) -/
theorem C9_radius_frame (vor : VorDiagram) (r r2 : ℝ)
    (out out2 : List (List ℤ) × List (ℝ × ℝ))
    (h : voronoi_finite_polygons_2d vor (some r) = .ok out)
    (h2 : voronoi_finite_polygons_2d vor (some r2) = .ok out2) :
    out.1.length = out2.1.length ∧
    (∃ t t2, out.2 = vor.vertices ++ t ∧ out2.2 = vor.vertices ++ t2 ∧
      List.Forall₂ (synthRel (meanOf vor.points) r r2) t t2) ∧
    ∀ i, i < vor.point_region.length →
      ((vor.regions.getD (vor.point_region.getD i 0) []).all
        fun v => decide (0 ≤ v)) = true →
      out.1.getD i [] = out2.1.getD i [] := by
  unfold voronoi_finite_polygons_2d at h h2
  by_cases hd : vor.dim ≠ 2
  · rw [if_pos hd] at h
    cases h
  · rw [if_neg hd] at h
    rw [if_neg hd] at h2
    simp only [Option.getD_some] at h h2
    obtain ⟨hL, hT, halign⟩ := runPoints_pair vor (meanOf vor.points) r r2
      vor.point_region.enum [] [] vor.vertices vor.vertices out out2 h h2 rfl rfl
    refine ⟨hL, hT, ?_⟩
    intro i hi hfin
    have hi' : i < vor.point_region.enum.length := by
      rw [List.enum_length]
      exact hi
    have hfin' : ((vor.regions.getD
        ((vor.point_region.enum.getD i (0, 0)).2) []).all
        fun v => decide (0 ≤ v)) = true := by
      rw [enum_getD vor.point_region i hi]
      exact hfin
    have := halign i hi' hfin'
    simpa using this

theorem C9_witness :
    ([[1, 0], [0], [0]] : List (List ℤ)).length =
      ([[1, 0], [0], [0]] : List (List ℤ)).length ∧
    (∃ t t2, ([(1, 40), (1, 39)] : List (ℝ × ℝ)) = vorRad.vertices ++ t ∧
      ([(1, 40), (1, 37)] : List (ℝ × ℝ)) = vorRad.vertices ++ t2 ∧
      List.Forall₂ (synthRel (meanOf vorRad.points) 1 3) t t2) ∧
    ∀ i, i < vorRad.point_region.length →
      ((vorRad.regions.getD (vorRad.point_region.getD i 0) []).all
        fun v => decide (0 ≤ v)) = true →
      ([[1, 0], [0], [0]] : List (List ℤ)).getD i [] =
        ([[1, 0], [0], [0]] : List (List ℤ)).getD i [] :=
  C9_radius_frame vorRad 1 3
    ([[1, 0], [0], [0]], [(1, 40), (1, 39)])
    ([[1, 0], [0], [0]], [(1, 40), (1, 37)])
    (by
      have h := vorRad_run 1 (by norm_num)
      rw [show (40 : ℝ) - 1 = 39 by norm_num] at h
      exact h)
    (by
      have h := vorRad_run 3 (by norm_num)
      rw [show (40 : ℝ) - 3 = 37 by norm_num] at h
      exact h)

/-! ### Claim C6 -/

theorem foldl_max_spec (x : ℝ) (xs : List ℝ) :
    (xs.foldl max x = x ∨ xs.foldl max x ∈ xs) ∧
    x ≤ xs.foldl max x ∧ ∀ c ∈ xs, c ≤ xs.foldl max x := by
  induction xs generalizing x with
  | nil => simp
  | cons y ys ih =>
    simp only [List.foldl_cons]
    obtain ⟨hmem, hx, hall⟩ := ih (max x y)
    refine ⟨?_, le_trans (le_max_left x y) hx, ?_⟩
    · rcases hmem with hm | hm
      · rcases max_choice x y with hc | hc
        · left
          rw [hm, hc]
        · right
          rw [hm, hc]
          exact List.mem_cons_self _ _
      · right
        exact List.mem_cons_of_mem _ hm
    · intro c hc
      rcases List.mem_cons.1 hc with h1 | h1
      · subst h1
        exact le_trans (le_max_right _ _) hx
      · exact hall c h1

theorem foldl_min_spec (x : ℝ) (xs : List ℝ) :
    (xs.foldl min x = x ∨ xs.foldl min x ∈ xs) ∧
    xs.foldl min x ≤ x ∧ ∀ c ∈ xs, xs.foldl min x ≤ c := by
  induction xs generalizing x with
  | nil => simp
  | cons y ys ih =>
    simp only [List.foldl_cons]
    obtain ⟨hmem, hx, hall⟩ := ih (min x y)
    refine ⟨?_, le_trans hx (min_le_left x y), ?_⟩
    · rcases hmem with hm | hm
      · rcases min_choice x y with hc | hc
        · left
          rw [hm, hc]
        · right
          rw [hm, hc]
          exact List.mem_cons_self _ _
      · right
        exact List.mem_cons_of_mem _ hm
    · intro c hc
      rcases List.mem_cons.1 hc with h1 | h1
      · subst h1
        exact le_trans hx (min_le_right _ _)
      · exact hall c h1

theorem listMax_spec (l : List ℝ) (h : l ≠ []) :
    listMax l ∈ l ∧ ∀ c ∈ l, c ≤ listMax l := by
  cases l with
  | nil => exact absurd rfl h
  | cons x xs =>
    simp only [listMax]
    obtain ⟨hmem, hx, hall⟩ := foldl_max_spec x xs
    refine ⟨?_, ?_⟩
    · rcases hmem with hm | hm
      · rw [hm]
        exact List.mem_cons_self _ _
      · exact List.mem_cons_of_mem _ hm
    · intro c hc
      rcases List.mem_cons.1 hc with h1 | h1
      · subst h1
        exact hx
      · exact hall c h1

theorem listMin_spec (l : List ℝ) (h : l ≠ []) :
    listMin l ∈ l ∧ ∀ c ∈ l, listMin l ≤ c := by
  cases l with
  | nil => exact absurd rfl h
  | cons x xs =>
    simp only [listMin]
    obtain ⟨hmem, hx, hall⟩ := foldl_min_spec x xs
    refine ⟨?_, ?_⟩
    · rcases hmem with hm | hm
      · rw [hm]
        exact List.mem_cons_self _ _
      · exact List.mem_cons_of_mem _ hm
    · intro c hc
      rcases List.mem_cons.1 hc with h1 | h1
      · subst h1
        exact hx
      · exact hall c h1

/-- C6 is refuted as stated: on the points (0, 10), (1, 10) the code's
default radius (`points.ptp().max()*2`, the peak-to-peak of the flattened
coordinate array, times two) is 20, while twice the larger per-axis extent
(the claim's formula, `specRadius`) is 2. -/
theorem C6_counterexample :
    defaultRadius [(0, 10), (1, 10)] = 20 ∧
    specRadius [(0, 10), (1, 10)] = 2 ∧
    defaultRadius [(0, 10), (1, 10)] ≠ specRadius [(0, 10), (1, 10)] := by
  have h1 : defaultRadius [((0 : ℝ), 10), (1, 10)] = 20 := by
    simp only [defaultRadius, flatCoords, listMax, listMin]
    norm_num [max_def, min_def]
  have h2 : specRadius [((0 : ℝ), 10), (1, 10)] = 2 := by
    simp only [specRadius, listMax, listMin]
    norm_num [max_def, min_def]
  refine ⟨h1, h2, ?_⟩
  rw [h1, h2]
  norm_num

/-- C6 amended: when no radius is supplied the code uses
`points.ptp().max() * 2` where `ptp()` flattens the N×2 array — i.e. twice
the difference between the global maximum and the global minimum over the x
and y coordinates of all points taken together (not twice the larger
per-axis extent). -/
theorem C6_default_radius_flat_ptp (pts : List (ℝ × ℝ)) (h : pts ≠ []) :
    ∃ M m : ℝ, M ∈ flatCoords pts ∧ m ∈ flatCoords pts ∧
      (∀ c ∈ flatCoords pts, m ≤ c ∧ c ≤ M) ∧
      defaultRadius pts = (M - m) * 2 := by
  have hne : flatCoords pts ≠ [] := by
    cases pts with
    | nil => exact absurd rfl h
    | cons p ps => simp [flatCoords]
  obtain ⟨hM, hMall⟩ := listMax_spec _ hne
  obtain ⟨hm, hmall⟩ := listMin_spec _ hne
  exact ⟨listMax (flatCoords pts), listMin (flatCoords pts), hM, hm,
    fun c hc => ⟨hmall c hc, hMall c hc⟩, rfl⟩

theorem C6_witness :
    ∃ M m : ℝ, M ∈ flatCoords [(0, 10), (1, 10)] ∧
      m ∈ flatCoords [(0, 10), (1, 10)] ∧
      (∀ c ∈ flatCoords [(0, 10), (1, 10)], m ≤ c ∧ c ≤ M) ∧
      defaultRadius [(0, 10), (1, 10)] = (M - m) * 2 :=
  C6_default_radius_flat_ptp [(0, 10), (1, 10)] (by simp)

/-! ### Claim C7 -/

theorem pyGet_append (l t : List (ℝ × ℝ)) (d : ℝ × ℝ) (v : ℤ)
    (h0 : 0 ≤ v) (hv : v < (l.length : ℤ)) :
    pyGet (l ++ t) d v = pyGet l d v := by
  simp only [pyGet, if_pos h0]
  exact List.getD_append l t d v.toNat (by omega)

/-- C7 is refuted as stated: `vorFin` supplies a finite region whose
provider order is clockwise; the reconstructor emits it unchanged and its
shoelace signed area is −1/2, not positive. -/
theorem C7_counterexample :
    voronoi_finite_polygons_2d vorFin none =
      .ok ([[0, 1, 2]], [(0, 0), (0, 1), (1, 0)]) ∧
    shoelace (outPolygon ([[0, 1, 2]], [(0, 0), (0, 1), (1, 0)]) 0) = -(1 / 2) ∧
    ¬ (0 < shoelace (outPolygon ([[0, 1, 2]], [(0, 0), (0, 1), (1, 0)]) 0)) := by
  have hs : shoelace (outPolygon ([[0, 1, 2]],
      [((0 : ℝ), 0), (0, 1), (1, 0)]) 0) = -(1 / 2) := by
    show ((0 : ℝ) * 1 - 0 * 0 + (0 * 0 - 1 * 1 + (1 * 0 - 0 * 0 + 0))) / 2 =
      -(1 / 2)
    norm_num
  refine ⟨vorFin_run, hs, ?_⟩
  rw [hs]
  norm_num

/-- C7 amended: the reconstructor applies no orientation fix to an
already-finite region — it emits the provider's vertex indices unchanged,
so the output polygon has exactly the provider's coordinates and hence
exactly the provider's shoelace signed area (positive only when the
provider's order was counterclockwise).  Positivity of every output
polygon is not guaranteed by the code. -/
theorem C7_passthrough_area (vor : VorDiagram) (radius : Option ℝ)
    (out : List (List ℤ) × List (ℝ × ℝ)) (i : ℕ)
    (h : voronoi_finite_polygons_2d vor radius = .ok out)
    (hi : i < vor.point_region.length)
    (hfin : ((vor.regions.getD (vor.point_region.getD i 0) []).all
      fun v => decide (0 ≤ v)) = true)
    (hvalid : ∀ v ∈ vor.regions.getD (vor.point_region.getD i 0) [],
      v < (vor.vertices.length : ℤ)) :
    outPolygon out i =
      (vor.regions.getD (vor.point_region.getD i 0) []).map
        (pyGet vor.vertices (0, 0)) ∧
    shoelace (outPolygon out i) =
      shoelace ((vor.regions.getD (vor.point_region.getD i 0) []).map
        (pyGet vor.vertices (0, 0))) := by
  have hreg := run_finite_region vor radius out i h hi hfin
  have hverts : ∃ t, out.2 = vor.vertices ++ t := by
    unfold voronoi_finite_polygons_2d at h
    by_cases hd : vor.dim ≠ 2
    · rw [if_pos hd] at h
      cases h
    · rw [if_neg hd] at h
      exact runPoints_ok_verts vor _ _ _ [] vor.vertices out h
  obtain ⟨t, ht⟩ := hverts
  have hmap : outPolygon out i =
      (vor.regions.getD (vor.point_region.getD i 0) []).map
        (pyGet vor.vertices (0, 0)) := by
    unfold outPolygon
    rw [hreg, ht]
    refine List.map_congr_left ?_
    intro v hv
    have h0 : 0 ≤ v := by
      simpa using List.all_eq_true.1 hfin v hv
    exact pyGet_append vor.vertices t (0, 0) v h0 (hvalid v hv)
  exact ⟨hmap, by rw [hmap]⟩

theorem C7_witness :
    outPolygon ([[0, 1, 2]], [(0, 0), (0, 1), (1, 0)]) 0 =
      (vorFin.regions.getD (vorFin.point_region.getD 0 0) []).map
        (pyGet vorFin.vertices (0, 0)) :=
  (C7_passthrough_area vorFin none ([[0, 1, 2]], [(0, 0), (0, 1), (1, 0)]) 0
    vorFin_run (by decide) (by decide) (by decide)).1

end Bionoi
